import Mathlib

/-!
Verification development for the `python-flamegraph` statistical sampling
profiler (`flamegraph/flamegraph.py`).

The Python source is shallowly embedded:

* `FrameInfo` mirrors the `FrameInfo` namedtuple `(fname, short_fname, line,
  fun)`; the Python field `fun` is a Lean keyword and is rendered `func`.
* A captured frame object is represented by the raw traceback list that
  `traceback.extract_stack(frame)` returns for it (outermost frame first),
  each element being the tuple `(fn, ln, fun, text)`.
* `Profiler` mirrors the `Profiler` class.  Its `_stats` defaultdict is an
  insertion-ordered association list; the output file object `_fd` is a pair
  of the list of strings written so far and the number of `close()` calls;
  the compiled filter regex is represented by its `search` predicate
  (a `String → Bool` function), `None` by `Option.none`.
* Python string comparison (used by `sorted`) is lexicographic on code
  points; `str_le`/`chars_le` implement exactly that order.
* Timer and signal plumbing (`signal.setitimer`, `signal.signal`,
  `atexit.register`) only arms and disarms the OS timer; it carries no
  program state relevant to the verified properties and is not modelled.
-/

/-- One stack frame's identity, mirroring the namedtuple
`FrameInfo = (fname, short_fname, line, fun)`. -/
structure FrameInfo where
  fname : String
  short_fname : String
  line : Nat
  func : String
deriving DecidableEq

/-- One raw entry `(fn, ln, fun, text)` of the list returned by
`traceback.extract_stack(frame)`, outermost frame first. -/
structure RawFrame where
  fn : String
  ln : Nat
  func : String
  text : String
deriving DecidableEq

/-- Characters after the last `'/'` of the list (the whole list when it has
no `'/'`). -/
def after_last_slash : List Char → List Char
  | [] => []
  | c :: rest =>
    if '/' ∈ rest then after_last_slash rest
    else if c = '/' then rest
    else c :: rest

/-- Model of `re.sub(r'.*/', '', fn)`: the greedy `.*` eats everything up to
and including the last slash, leaving the basename (the whole string when it
has no slash).  Filenames are assumed newline-free, as `.` does not match a
newline. -/
def short_fname (fn : String) : String :=
  String.mk (after_last_slash fn.toList)

/-- Body of the loop in `extract_frame_info`: build a `FrameInfo` from one
raw traceback tuple. -/
def frame_info_of_raw (rf : RawFrame) : FrameInfo :=
  ⟨rf.fn, short_fname rf.fn, rf.ln, rf.func⟩

/-- Embeds `extract_frame_info(frame)`: iterate over
`traceback.extract_stack(frame)[1:]` — the slice drops the first (outermost)
raw frame — and yield a `FrameInfo` for each remaining tuple. -/
def extract_frame_info (stack : List RawFrame) : List FrameInfo :=
  (stack.drop 1).map frame_info_of_raw

/-- Embeds `default_format_entry` applied with the default template
`'%(fun)s@%(short_fname)s:%(line)s'`. -/
def default_format_entry (fi : FrameInfo) : String :=
  fi.func ++ "@" ++ fi.short_fname ++ ":" ++ toString fi.line

/-- Loop of the `collapse_recursion` branch of `create_flamegraph_entry`:
`last` starts as `None`; a frame is formatted exactly when `last != fi.fun`,
and `last` becomes `fi.fun` after every iteration. -/
def collapse_loop (format_entry : FrameInfo → String) :
    Option String → List FrameInfo → List String
  | _, [] => []
  | last, fi :: rest =>
    if last ≠ some fi.func then
      format_entry fi :: collapse_loop format_entry (some fi.func) rest
    else
      collapse_loop format_entry (some fi.func) rest

/-- Body of `create_flamegraph_entry` over the already-extracted `FrameInfo`
sequence (the spec's `StackSnapshot`): either the collapse loop or a plain
map, joined with `';'`. -/
def encode (snapshot : List FrameInfo) (format_entry : FrameInfo → String)
    (collapse_recursion : Bool) : String :=
  if collapse_recursion then
    String.intercalate ";" (collapse_loop format_entry none snapshot)
  else
    String.intercalate ";" (snapshot.map format_entry)

/-- Embeds `create_flamegraph_entry(frame, format_entry, collapse_recursion)`:
extract the frame infos of the captured frame, then encode them. -/
def create_flamegraph_entry (frame : List RawFrame)
    (format_entry : FrameInfo → String) (collapse_recursion : Bool) : String :=
  encode (extract_frame_info frame) format_entry collapse_recursion

/-- The concrete snapshot used by the spec's determinism example:
`[(main,f.py,1,"mod"), (g,f.py,5,"foo"), (g,f.py,5,"foo")]` read as
`FrameInfo` values `(fname, short_fname, line, fun)`. -/
def c1_snapshot : List FrameInfo :=
  [⟨"main", "f.py", 1, "mod"⟩, ⟨"g", "f.py", 5, "foo"⟩, ⟨"g", "f.py", 5, "foo"⟩]

/-- Lexicographic comparison of two character lists by code point, the order
Python uses when comparing `str` values (and hence the order of `sorted` on
the stats keys). -/
def chars_le : List Char → List Char → Bool
  | [], _ => true
  | _ :: _, [] => false
  | a :: as, b :: bs =>
    if a.toNat < b.toNat then true
    else if b.toNat < a.toNat then false
    else chars_le as bs

/-- Python's `<=` on strings: lexicographic by code point. -/
def str_le (a b : String) : Bool :=
  chars_le a.toList b.toList

/-- Embeds `self._stats[entry] += 1` on the `defaultdict(int)`: bump the
count of an existing key in place, or append the key with count 1 (a Python
dict is insertion-ordered). -/
def incr : List (String × Nat) → String → List (String × Nat)
  | [], k => [(k, 1)]
  | (k₂, v) :: rest, k =>
    if k₂ = k then (k₂, v + 1) :: rest else (k₂, v) :: incr rest k

/-- Reading `self._stats[key]`; keys absent from the defaultdict have count
0. -/
def lookupD : List (String × Nat) → String → Nat
  | [], _ => 0
  | (k₂, v) :: rest, k => if k₂ = k then v else lookupD rest k

/-- Embeds `sum(self._stats.values())`. -/
def sum_vals (st : List (String × Nat)) : Nat :=
  (st.map Prod.snd).sum

/-- Embeds `self._stats.keys()` (in insertion order). -/
def stats_keys (st : List (String × Nat)) : List String :=
  st.map Prod.fst

/-- Embeds `sorted(self._stats.keys())`: the keys in non-decreasing Python
string order.  `sorted` is a stable comparison sort; on the (duplicate-free)
key list any sort agreeing with the order is extensionally the same, and
insertion sort is itself stable. -/
def sorted_keys (st : List (String × Nat)) : List String :=
  List.insertionSort (fun a b => str_le a b = true) (stats_keys st)

/-- The lines written by `_write_results`: for each key in sorted order,
`'%s %d\n' % (key, self._stats[key])`. -/
def report_lines (st : List (String × Nat)) : List String :=
  (sorted_keys st).map (fun k => k ++ " " ++ toString (lookupD st k) ++ "\n")

/-- Embeds the `Profiler` class state.  `_lock` (mutual exclusion, no
observable content in a sequential model), `_interval` (a float consumed
only by `setitimer`) and the OS timer are not modelled; the file object
`_fd` is modelled by the list of strings written to it (`_fd_out`) and the
number of `close()` calls (`_fd_closed`); the compiled filter regex is
modelled by its `search` predicate. -/
structure Profiler where
  _written : Bool
  _filter : Option (String → Bool)
  _format_entry : FrameInfo → String
  _collapse_recursion : Bool
  _stats : List (String × Nat)
  _fd_out : List String
  _fd_closed : Nat

/-- Embeds `Profiler.__init__`: `_written = False`, `_filter` compiled from
the optional pattern (here: the compiled predicate is passed directly),
`_stats` empty, and a fresh output file (nothing written, not closed). -/
def Profiler.init (fil : Option (String → Bool)) (format_entry : FrameInfo → String)
    (collapse_recursion : Bool) : Profiler :=
  { _written := false
    _filter := fil
    _format_entry := format_entry
    _collapse_recursion := collapse_recursion
    _stats := []
    _fd_out := []
    _fd_closed := 0 }

/-- Embeds `Profiler.on_itimer(self, signum, frame)` (the `signum` argument
is unused by the body): encode the interrupted frame, and if
`self._filter is None or self._filter.search(entry)`, increment the entry's
count under the lock. -/
def Profiler.on_itimer (p : Profiler) (frame : List RawFrame) : Profiler :=
  let entry := create_flamegraph_entry frame p._format_entry p._collapse_recursion
  if (match p._filter with | none => true | some f => f entry) then
    { p with _stats := incr p._stats entry }
  else
    p

/-- Embeds `Profiler._write_results`: under the lock, return immediately if
`_written` is already set; otherwise set it, write one line per sorted key,
and close the output file. -/
def Profiler._write_results (p : Profiler) : Profiler :=
  if p._written then p
  else
    { p with
      _written := true
      _fd_out := p._fd_out ++ report_lines p._stats
      _fd_closed := p._fd_closed + 1 }

/-- Embeds `Profiler.num_frames(self, unique=False)`. -/
def Profiler.num_frames (p : Profiler) (unique : Bool) : Nat :=
  if unique then p._stats.length else sum_vals p._stats

/-- Embeds `Profiler.stop`: `signal.setitimer(signal.ITIMER_PROF, 0)` only
disarms the OS timer (no modelled state), then `self._write_results()`. -/
def Profiler.stop (p : Profiler) : Profiler :=
  p._write_results

/-- The encoded entries the profiler computes for a list of interrupted
frames (its formatting function and collapse flag never change after
construction). -/
def entries_of (p : Profiler) (frames : List (List RawFrame)) : List String :=
  frames.map (fun f => create_flamegraph_entry f p._format_entry p._collapse_recursion)

/-- A run of timer ticks: `on_itimer` once per captured frame. -/
def run_ticks (p : Profiler) (frames : List (List RawFrame)) : Profiler :=
  frames.foldl Profiler.on_itimer p

/-- One observable event in a profiler lifetime: a timer tick interrupting
some frame, or a call to `stop()` (from user code, an exception handler or
the atexit hook). -/
inductive Event where
  | tick : List RawFrame → Event
  | stop : Event
deriving DecidableEq

/-- Apply one event to the profiler state. -/
def step (p : Profiler) : Event → Profiler
  | Event.tick f => p.on_itimer f
  | Event.stop => p.stop

/-- Run an arbitrary interleaving of ticks and stop calls. -/
def run (p : Profiler) (tr : List Event) : Profiler :=
  tr.foldl step p

/-- Effectful formatting: a Python formatting function may raise (e.g.
`default_format_entry` with a template naming an unknown placeholder raises
`KeyError`), modelled as `Except` with the exception text as error. -/
def map_exc (f : FrameInfo → Except String String) :
    List FrameInfo → Except String (List String)
  | [] => Except.ok []
  | fi :: rest => do
    let s ← f fi
    let tl ← map_exc f rest
    Except.ok (s :: tl)

/-- Exception-aware collapse loop: the first formatting failure aborts the
iteration and propagates, exactly as an exception leaves the Python loop. -/
def collapse_loop_exc (f : FrameInfo → Except String String) :
    Option String → List FrameInfo → Except String (List String)
  | _, [] => Except.ok []
  | last, fi :: rest =>
    if last ≠ some fi.func then do
      let s ← f fi
      let tl ← collapse_loop_exc f (some fi.func) rest
      Except.ok (s :: tl)
    else
      collapse_loop_exc f (some fi.func) rest

/-- Exception-aware `create_flamegraph_entry`: the function has no exception
handling of its own, so a formatting failure propagates to its caller. -/
def create_flamegraph_entry_exc (frame : List RawFrame)
    (f : FrameInfo → Except String String) (collapse_recursion : Bool) :
    Except String String :=
  if collapse_recursion then
    (collapse_loop_exc f none (extract_frame_info frame)).map (String.intercalate ";")
  else
    (map_exc f (extract_frame_info frame)).map (String.intercalate ";")

/-- Exception-aware `on_itimer` body: the handler contains no `try/except`,
so an error from the formatting function propagates out of the handler into
the interrupted program instead of being swallowed.  On success it performs
the filtered increment on `_stats`. -/
def on_itimer_exc (stats : List (String × Nat)) (fil : Option (String → Bool))
    (f : FrameInfo → Except String String) (collapse_recursion : Bool)
    (frame : List RawFrame) : Except String (List (String × Nat)) :=
  match create_flamegraph_entry_exc frame f collapse_recursion with
  | Except.error e => Except.error e
  | Except.ok entry =>
    if (match fil with | none => true | some g => g entry) then
      Except.ok (incr stats entry)
    else
      Except.ok stats

/-- Substring search: does `pat` occur contiguously in the second list? -/
def search_lit : List Char → List Char → Bool
  | pat, [] => pat.isPrefixOf ([] : List Char)
  | pat, c :: rest => pat.isPrefixOf (c :: rest) || search_lit pat rest

/-- Model of the truthiness of `re.compile("foo").search(s)`: a pattern free
of metacharacters matches iff it occurs as a contiguous substring of `s`. -/
def foo_search (s : String) : Bool :=
  search_lit "foo".toList s.toList

/-- First raw frame of every captured traceback: the outermost frame, which
lives in the profiler program itself and is dropped by the `[1:]` slice. -/
def raw_main : RawFrame :=
  ⟨"fg.py", 1, "m", ""⟩

/-- A captured traceback whose encoded entry is `"work@u.py:2"`. -/
def stack_work : List RawFrame :=
  [raw_main, ⟨"u.py", 2, "work", ""⟩]

/-- A captured traceback whose encoded entry is `"other@u.py:9"`. -/
def stack_other : List RawFrame :=
  [raw_main, ⟨"u.py", 9, "other", ""⟩]

/-- A captured traceback whose encoded entry is `"bar@f.py:1"`. -/
def stack_bar : List RawFrame :=
  [raw_main, ⟨"f.py", 1, "bar", ""⟩]

/-- A captured traceback whose encoded entry is `"foo@f.py:1"`. -/
def stack_foo : List RawFrame :=
  [raw_main, ⟨"f.py", 1, "foo", ""⟩]

/-- A freshly constructed profiler with no filter and the default format. -/
def p_plain : Profiler :=
  Profiler.init none default_format_entry false

/-- A freshly constructed profiler whose filter pattern is `"foo"`. -/
def p_foo : Profiler :=
  Profiler.init (some foo_search) default_format_entry false

/-- A profiler about to be finalized with two aggregated entries. -/
def p_report : Profiler :=
  { Profiler.init none default_format_entry false with _stats := [("b", 2), ("a", 1)] }

/-- A lifetime trace with ticks and stop calls interleaved, stop occurring
twice. -/
def tr_events : List Event :=
  [Event.tick stack_work, Event.stop, Event.tick stack_work, Event.stop]

/-- Three ticks, two of which capture the same stack. -/
def frames3 : List (List RawFrame) :=
  [stack_work, stack_other, stack_work]

/-- Unfolding lemma for the collapse loop: a frame contributes a formatted
record exactly when the routine name remembered from the immediately
preceding frame (`none` before the first frame) differs from its own. -/
theorem collapse_loop_eq_filterMap (fmt : FrameInfo → String) :
    ∀ (s : List FrameInfo) (last : Option String),
      collapse_loop fmt last s =
        (s.zip (last :: s.map fun fi => some fi.func)).filterMap
          (fun q => if q.2 ≠ some q.1.func then some (fmt q.1) else none)
  | [], _ => rfl
  | fi :: rest, last => by
    by_cases h : last = some fi.func
    · simp [collapse_loop, h, List.filterMap_cons,
        collapse_loop_eq_filterMap fmt rest (some fi.func)]
    · simp [collapse_loop, h, List.filterMap_cons,
        collapse_loop_eq_filterMap fmt rest (some fi.func)]

/-- C1: for a fixed stack snapshot, formatting function and collapse flag the
encoder is deterministic (it is a pure function of its arguments), and on the
snapshot `[(main,f.py,1,"mod"),(g,f.py,5,"foo"),(g,f.py,5,"foo")]` with the
default format it returns `"mod@f.py:1;foo@f.py:5"` with collapse on and
`"mod@f.py:1;foo@f.py:5;foo@f.py:5"` with collapse off. -/
theorem c1_encode_deterministic :
    (∀ (frame : List RawFrame) (fmt : FrameInfo → String) (c : Bool),
        create_flamegraph_entry frame fmt c = create_flamegraph_entry frame fmt c) ∧
    encode c1_snapshot default_format_entry true = "mod@f.py:1;foo@f.py:5" ∧
    encode c1_snapshot default_format_entry false = "mod@f.py:1;foo@f.py:5;foo@f.py:5" :=
  ⟨fun _ _ _ => rfl, by decide, by decide⟩

/-- C2: with collapse enabled the encoder emits a formatted record for a
frame exactly when the immediately preceding frame's routine name (none for
the first frame) differs from the current frame's routine name; in
particular non-adjacent occurrences of the same routine name are all
emitted, as the appended concrete snapshot with `f` at positions 0 and 2
shows. -/
theorem c2_collapse_adjacent_only :
    (∀ (fmt : FrameInfo → String) (s : List FrameInfo),
      encode s fmt true =
        String.intercalate ";"
          ((s.zip (none :: s.map fun fi => some fi.func)).filterMap
            (fun q => if q.2 ≠ some q.1.func then some (fmt q.1) else none))) ∧
    encode [⟨"a", "a", 1, "f"⟩, ⟨"b", "b", 2, "g"⟩, ⟨"c", "c", 3, "f"⟩]
        default_format_entry true = "f@a:1;g@b:2;f@c:3" :=
  ⟨fun fmt s => by
    simp only [encode, if_pos]
    rw [collapse_loop_eq_filterMap],
   by decide⟩

/-- C8: an empty snapshot (no frames after extraction, e.g. a raw traceback
of at most one frame) encodes to the empty string under both values of the
collapse flag, without faulting. -/
theorem c8_empty_snapshot :
    (∀ (fmt : FrameInfo → String) (c : Bool), encode [] fmt c = "") ∧
    (∀ (x : RawFrame) (fmt : FrameInfo → String) (c : Bool),
        create_flamegraph_entry [x] fmt c = "") ∧
    (∀ (fmt : FrameInfo → String) (c : Bool),
        create_flamegraph_entry [] fmt c = "") := by
  refine ⟨fun fmt c => ?_, fun x fmt c => ?_, fun fmt c => ?_⟩ <;> cases c <;> rfl

/-- C9: frame extraction drops exactly the first (outermost) raw frame of
the traceback: on `x :: rest` it returns the frame infos of `rest`, and
consequently the encoded entry never depends on that first frame. -/
theorem c9_capture_frame_excluded :
    ∀ (x : RawFrame) (rest : List RawFrame),
      extract_frame_info (x :: rest) = rest.map frame_info_of_raw ∧
      ∀ (y : RawFrame) (fmt : FrameInfo → String) (c : Bool),
        create_flamegraph_entry (x :: rest) fmt c =
          create_flamegraph_entry (y :: rest) fmt c :=
  fun _ _ => ⟨rfl, fun _ _ _ => rfl⟩

/-- Incrementing a key adds one to the total of all counts. -/
theorem sum_vals_incr : ∀ (st : List (String × Nat)) (k : String),
    sum_vals (incr st k) = sum_vals st + 1
  | [], _ => rfl
  | (k₂, v) :: rest, k => by
    by_cases h : k₂ = k
    · simp [incr, h, sum_vals]
      omega
    · simp [incr, h, sum_vals] at *
      have := sum_vals_incr rest k
      simp [sum_vals] at this
      omega

/-- Incrementing a key adds one to that key's stored count. -/
theorem lookupD_incr_self : ∀ (st : List (String × Nat)) (k : String),
    lookupD (incr st k) k = lookupD st k + 1
  | [], k => by simp [incr, lookupD]
  | (k₂, v) :: rest, k => by
    by_cases h : k₂ = k
    · simp [incr, h, lookupD]
    · simp [incr, h, lookupD, lookupD_incr_self rest k]

/-- Incrementing a key leaves every other key's stored count unchanged. -/
theorem lookupD_incr_ne : ∀ (st : List (String × Nat)) (k kI : String),
    k ≠ kI → lookupD (incr st kI) k = lookupD st k
  | [], k, kI, h => by simp [incr, lookupD, Ne.symm h]
  | (k₂, v) :: rest, k, kI, h => by
    by_cases h₂ : k₂ = kI
    · have hne : k₂ ≠ k := by rw [h₂]; exact Ne.symm h
      simp [incr, h₂, lookupD, hne, Ne.symm h]
    · by_cases h₃ : k₂ = k
      · simp [incr, h₂, lookupD, h₃, h]
      · simp [incr, h₂, lookupD, h₃, lookupD_incr_ne rest k kI h]

/-- The key set after an increment is the old key set plus the incremented
key. -/
theorem mem_stats_keys_incr : ∀ (st : List (String × Nat)) (k k₁ : String),
    (k₁ ∈ stats_keys (incr st k) ↔ k₁ ∈ stats_keys st ∨ k₁ = k)
  | [], k, k₁ => by simp [incr, stats_keys]
  | (k₂, v) :: rest, k, k₁ => by
    by_cases h : k₂ = k
    · subst h
      simp only [incr, eq_self_iff_true, if_true, stats_keys, List.map_cons, List.mem_cons]
      tauto
    · simp only [incr, if_neg h, stats_keys, List.map_cons, List.mem_cons]
      rw [show List.map Prod.fst (incr rest k) = stats_keys (incr rest k) from rfl,
        mem_stats_keys_incr rest k k₁]
      simp only [stats_keys]
      tauto

/-- Incrementing preserves distinctness of the stored keys. -/
theorem nodup_stats_keys_incr : ∀ (st : List (String × Nat)) (k : String),
    (stats_keys st).Nodup → (stats_keys (incr st k)).Nodup
  | [], k, _ => by simp [incr, stats_keys]
  | (k₂, v) :: rest, k, h => by
    simp only [stats_keys, List.map_cons, List.nodup_cons] at h
    by_cases hk : k₂ = k
    · simp only [incr, if_pos hk, stats_keys, List.map_cons, List.nodup_cons]
      exact ⟨by simpa [stats_keys] using h.1, by simpa [stats_keys] using h.2⟩
    · simp only [incr, if_neg hk, stats_keys, List.map_cons, List.nodup_cons]
      constructor
      · intro hmem
        have := (mem_stats_keys_incr rest k k₂).mp (by simpa [stats_keys] using hmem)
        rcases this with hm | he
        · exact h.1 (by simpa [stats_keys] using hm)
        · exact hk he
      · exact nodup_stats_keys_incr rest k (by simpa [stats_keys] using h.2)

/-- Folding a sequence of increments adds the sequence length to the total
count. -/
theorem sum_vals_foldl : ∀ (ks : List String) (st : List (String × Nat)),
    sum_vals (ks.foldl incr st) = sum_vals st + ks.length
  | [], st => by simp
  | k :: ks, st => by
    simp only [List.foldl_cons, List.length_cons, sum_vals_foldl ks (incr st k),
      sum_vals_incr]
    omega

/-- Folding a sequence of increments adds each key's occurrence count to its
stored count. -/
theorem lookupD_foldl : ∀ (ks : List String) (st : List (String × Nat)) (k : String),
    lookupD (ks.foldl incr st) k = lookupD st k + ks.count k
  | [], st, k => by simp
  | k₂ :: ks, st, k => by
    simp only [List.foldl_cons, lookupD_foldl ks (incr st k₂) k]
    by_cases h : k = k₂
    · subst h
      rw [lookupD_incr_self]
      simp [List.count_cons]
      omega
    · rw [lookupD_incr_ne st k k₂ h]
      simp [List.count_cons, h]

/-- After folding a sequence of increments the key set is the old key set
plus the keys of the sequence. -/
theorem mem_stats_keys_foldl : ∀ (ks : List String) (st : List (String × Nat)) (k₁ : String),
    (k₁ ∈ stats_keys (ks.foldl incr st) ↔ k₁ ∈ stats_keys st ∨ k₁ ∈ ks)
  | [], st, k₁ => by simp
  | k :: ks, st, k₁ => by
    simp only [List.foldl_cons, List.mem_cons, mem_stats_keys_foldl ks (incr st k) k₁,
      mem_stats_keys_incr st k k₁]
    tauto

/-- Folding increments preserves distinctness of the stored keys. -/
theorem nodup_stats_keys_foldl : ∀ (ks : List String) (st : List (String × Nat)),
    (stats_keys st).Nodup → (stats_keys (ks.foldl incr st)).Nodup
  | [], _, h => h
  | k :: ks, st, h =>
    nodup_stats_keys_foldl ks (incr st k) (nodup_stats_keys_incr st k h)

/-- With no filter configured, a run of ticks is exactly a fold of
increments of the encoded entries over the stats map; no other profiler
field changes. -/
theorem run_ticks_eq : ∀ (frames : List (List RawFrame)) (p : Profiler),
    p._filter = none →
    run_ticks p frames = { p with _stats := (entries_of p frames).foldl incr p._stats }
  | [], p, _ => rfl
  | f :: fs, p, h => by
    have hstep : p.on_itimer f =
        { p with
          _stats :=
            incr p._stats (create_flamegraph_entry f p._format_entry p._collapse_recursion) } := by
      simp [Profiler.on_itimer, h]
    have h' : ({ p with
        _stats :=
          incr p._stats (create_flamegraph_entry f p._format_entry p._collapse_recursion) } :
        Profiler)._filter = none := h
    calc run_ticks p (f :: fs)
        = run_ticks (p.on_itimer f) fs := rfl
      _ = _ := by
          rw [hstep, run_ticks_eq fs _ h']
          simp [entries_of]

/-- C3: with every sample accepted (no filter), after any sequence of N
ticks of which the encoded entries contain K distinct strings,
`num_frames()` is N, `num_frames(unique=True)` is K, and each entry's
stored count is its number of occurrences in the sequence. -/
theorem c3_aggregation (p : Profiler) (frames : List (List RawFrame))
    (hf : p._filter = none) (hs : p._stats = []) :
    (run_ticks p frames).num_frames false = frames.length ∧
    (run_ticks p frames).num_frames true = (entries_of p frames).toFinset.card ∧
    ∀ k, lookupD (run_ticks p frames)._stats k = (entries_of p frames).count k := by
  rw [run_ticks_eq frames p hf]
  refine ⟨?_, ?_, fun k => ?_⟩
  · simp only [Profiler.num_frames, if_neg (Bool.false_ne_true), sum_vals_foldl, hs]
    simp [sum_vals, entries_of]
  · have hnil : (stats_keys (p._stats)).Nodup := by simp [hs, stats_keys]
    have hnd : (stats_keys ((entries_of p frames).foldl incr p._stats)).Nodup :=
      nodup_stats_keys_foldl (entries_of p frames) p._stats hnil
    have hmem : ∀ k₁, k₁ ∈ stats_keys ((entries_of p frames).foldl incr p._stats) ↔
        k₁ ∈ entries_of p frames := by
      intro k₁
      rw [mem_stats_keys_foldl]
      simp [hs, stats_keys]
    have hset : (stats_keys ((entries_of p frames).foldl incr p._stats)).toFinset =
        (entries_of p frames).toFinset := by
      ext a
      simp only [List.mem_toFinset]
      exact hmem a
    have hlen : ((entries_of p frames).foldl incr p._stats).length =
        (stats_keys ((entries_of p frames).foldl incr p._stats)).length := by
      simp [stats_keys]
    simp only [Profiler.num_frames, if_pos rfl]
    rw [hlen, ← List.toFinset_card_of_nodup hnd, hset]
    simp
  · rw [lookupD_foldl]
    simp [hs, lookupD]

/-- Closed instance of the aggregation theorem: three accepted ticks, two
distinct entries, the repeated entry counted twice. -/
theorem c3_aggregation_witness :
    (run_ticks p_plain frames3).num_frames false = 3 ∧
    (run_ticks p_plain frames3).num_frames true = 2 ∧
    lookupD (run_ticks p_plain frames3)._stats "work@u.py:2" = 2 := by
  obtain ⟨h1, h2, h3⟩ := c3_aggregation p_plain frames3 rfl rfl
  exact ⟨h1.trans (by decide), h2.trans (by decide),
    (h3 "work@u.py:2").trans (by decide)⟩

/-- The code-point order on character lists is total. -/
theorem chars_le_total : ∀ xs ys : List Char,
    chars_le xs ys = true ∨ chars_le ys xs = true
  | [], _ => Or.inl rfl
  | _ :: _, [] => Or.inr rfl
  | x :: xs, y :: ys => by
    rcases Nat.lt_trichotomy x.toNat y.toNat with h | h | h
    · left
      simp [chars_le, h]
    · rcases chars_le_total xs ys with hh | hh
      · left
        simp [chars_le, h, hh]
      · right
        simp [chars_le, h.symm, hh]
    · right
      simp [chars_le, h]

/-- The code-point order on character lists is transitive. -/
theorem chars_le_trans : ∀ xs ys zs : List Char,
    chars_le xs ys = true → chars_le ys zs = true → chars_le xs zs = true
  | [], _, _, _, _ => rfl
  | _ :: _, [], _, h₁, _ => by simp [chars_le] at h₁
  | _ :: _, _ :: _, [], _, h₂ => by simp [chars_le] at h₂
  | x :: xs, y :: ys, z :: zs, h₁, h₂ => by
    by_cases hxy : x.toNat < y.toNat
    · by_cases hyz : y.toNat < z.toNat
      · simp [chars_le, hxy.trans hyz]
      · by_cases hzy : z.toNat < y.toNat
        · simp [chars_le, hyz, hzy] at h₂
        · have hxz : x.toNat < z.toNat := by omega
          simp [chars_le, hxz]
    · by_cases hyx : y.toNat < x.toNat
      · simp [chars_le, hxy, hyx] at h₁
      · have h₁' : chars_le xs ys = true := by simpa [chars_le, hxy, hyx] using h₁
        by_cases hyz : y.toNat < z.toNat
        · have hxz : x.toNat < z.toNat := by omega
          simp [chars_le, hxz]
        · by_cases hzy : z.toNat < y.toNat
          · simp [chars_le, hyz, hzy] at h₂
          · have h₂' : chars_le ys zs = true := by simpa [chars_le, hyz, hzy] using h₂
            have hna : ¬x.toNat < z.toNat := by omega
            have hnb : ¬z.toNat < x.toNat := by omega
            simp [chars_le, hna, hnb, chars_le_trans xs ys zs h₁' h₂']

/-- The Python string order is total. -/
theorem str_le_total (a b : String) : str_le a b = true ∨ str_le b a = true :=
  chars_le_total a.toList b.toList

/-- The Python string order is transitive. -/
theorem str_le_trans (a b c : String) :
    str_le a b = true → str_le b c = true → str_le a c = true :=
  chars_le_trans a.toList b.toList c.toList

/-- C4: on an unfinalized profiler, `_write_results` appends to the sink
exactly one line per stored key, each line being the entry, one space, the
decimal count and a newline; the key sequence it walks is sorted
non-decreasingly in Python's lexicographic string order and is a
permutation of the stored keys; the sink is then closed. -/
theorem c4_report_format (p : Profiler) (h : p._written = false) :
    (p._write_results)._fd_out = p._fd_out ++ report_lines p._stats ∧
    report_lines p._stats =
      (sorted_keys p._stats).map
        (fun k => k ++ " " ++ toString (lookupD p._stats k) ++ "\n") ∧
    (report_lines p._stats).length = p._stats.length ∧
    List.Sorted (fun a b => str_le a b = true) (sorted_keys p._stats) ∧
    (sorted_keys p._stats).Perm (stats_keys p._stats) ∧
    (p._write_results)._fd_closed = p._fd_closed + 1 := by
  haveI ht : IsTotal String (fun a b => str_le a b = true) := ⟨str_le_total⟩
  haveI htr : IsTrans String (fun a b => str_le a b = true) := ⟨str_le_trans⟩
  refine ⟨?_, rfl, ?_, ?_, ?_, ?_⟩
  · simp [Profiler._write_results, h]
  · rw [report_lines, List.length_map, sorted_keys,
      (List.perm_insertionSort (fun a b => str_le a b = true) (stats_keys p._stats)).length_eq,
      stats_keys, List.length_map]
  · exact List.sorted_insertionSort (fun a b => str_le a b = true) (stats_keys p._stats)
  · exact List.perm_insertionSort (fun a b => str_le a b = true) (stats_keys p._stats)
  · simp [Profiler._write_results, h]

/-- Closed instance of the report-format theorem on a profiler holding the
two entries `b ↦ 2` and `a ↦ 1`. -/
theorem c4_report_format_witness :
    (p_report._write_results)._fd_out = ["a 1\n", "b 2\n"] ∧
    List.Sorted (fun a b => str_le a b = true) (sorted_keys p_report._stats) ∧
    (p_report._write_results)._fd_closed = 1 := by
  obtain ⟨h1, _, _, h4, _, h6⟩ := c4_report_format p_report rfl
  exact ⟨h1.trans (by decide), h4, h6.trans (by decide)⟩

/-- On an already-finalized profiler `_write_results` returns the state
unchanged: nothing is written and the sink is not touched. -/
theorem write_results_written (p : Profiler) (h : p._written = true) :
    p._write_results = p := by
  simp [Profiler._write_results, h]

/-- Applying `stop` twice is the same as applying it once. -/
theorem stop_stop (p : Profiler) : p.stop.stop = p.stop := by
  by_cases h : p._written
  · simp [Profiler.stop, Profiler._write_results, h]
  · simp [Profiler.stop, Profiler._write_results, h]

/-- Any positive number of `stop` calls equals a single one. -/
theorem stop_iterate : ∀ (n : Nat) (p : Profiler),
    Profiler.stop^[n + 1] p = p.stop
  | 0, p => rfl
  | n + 1, p => by
    rw [Function.iterate_succ_apply, stop_iterate n (p.stop), stop_stop]

/-- C5: from a fresh (unfinalized, sink untouched) profiler state, any
positive number of `stop` calls yields exactly the state of a single call:
the report is written once, the sink is closed exactly once, and the
finalize-and-write sequence never runs again. -/
theorem c5_stop_idempotent (p : Profiler) (h1 : p._written = false)
    (h2 : p._fd_closed = 0) :
    p.stop.stop = p.stop ∧
    (∀ n : Nat, Profiler.stop^[n + 1] p = p.stop) ∧
    p.stop._fd_out = p._fd_out ++ report_lines p._stats ∧
    p.stop._fd_closed = 1 ∧
    p.stop._written = true ∧
    p.stop.stop._fd_closed = 1 := by
  refine ⟨stop_stop p, fun n => stop_iterate n p, ?_, ?_, ?_, ?_⟩
  · simp [Profiler.stop, Profiler._write_results, h1]
  · simp [Profiler.stop, Profiler._write_results, h1, h2]
  · simp [Profiler.stop, Profiler._write_results, h1]
  · rw [stop_stop]
    simp [Profiler.stop, Profiler._write_results, h1, h2]

/-- Closed instance of the idempotent-stop theorem: three stop calls on a
concrete profiler behave as one, closing the sink exactly once. -/
theorem c5_stop_idempotent_witness :
    p_report.stop.stop = p_report.stop ∧
    Profiler.stop^[3] p_report = p_report.stop ∧
    p_report.stop._fd_closed = 1 := by
  obtain ⟨w1, w2, _, w4, _, _⟩ := c5_stop_idempotent p_report rfl rfl
  exact ⟨w1, w2 2, w4⟩

/-- C6: the filter is applied to the entire encoded entry and never changes
across ticks: no filter accepts everything; a configured filter accepts the
entry exactly when its search predicate holds of the whole entry string; in
particular with the `"foo"` pattern an entry `"bar@f.py:1"` is never
counted and an entry `"foo@f.py:1"` always is. -/
theorem c6_filter_entire_entry (p : Profiler) (frame : List RawFrame) :
    ((p.on_itimer frame)._filter = p._filter) ∧
    (p._filter = none →
      (p.on_itimer frame)._stats =
        incr p._stats (create_flamegraph_entry frame p._format_entry p._collapse_recursion)) ∧
    (∀ f, p._filter = some f →
      (p.on_itimer frame)._stats =
        (if f (create_flamegraph_entry frame p._format_entry p._collapse_recursion) then
          incr p._stats (create_flamegraph_entry frame p._format_entry p._collapse_recursion)
        else p._stats)) ∧
    (p._filter = some foo_search →
      create_flamegraph_entry frame p._format_entry p._collapse_recursion = "bar@f.py:1" →
      (p.on_itimer frame)._stats = p._stats) ∧
    (p._filter = some foo_search →
      create_flamegraph_entry frame p._format_entry p._collapse_recursion = "foo@f.py:1" →
      (p.on_itimer frame)._stats =
        incr p._stats (create_flamegraph_entry frame p._format_entry p._collapse_recursion)) := by
  refine ⟨?_, ?_, ?_, ?_, ?_⟩
  · simp only [Profiler.on_itimer]
    split
    · rfl
    · rfl
  · intro h
    simp [Profiler.on_itimer, h]
  · intro f h
    simp only [Profiler.on_itimer, h]
    by_cases hb : f (create_flamegraph_entry frame p._format_entry p._collapse_recursion)
    · simp [hb]
    · simp [hb]
  · intro h he
    have hfalse : foo_search "bar@f.py:1" = false := by decide
    simp [Profiler.on_itimer, h, he, hfalse]
  · intro h he
    have htrue : foo_search "foo@f.py:1" = true := by decide
    simp [Profiler.on_itimer, h, he, htrue]

/-- Closed instance of the filter theorem: under the `"foo"` pattern a tick
whose entry is `"bar@f.py:1"` leaves the stats untouched and a tick whose
entry is `"foo@f.py:1"` increments them. -/
theorem c6_filter_entire_entry_witness :
    (p_foo.on_itimer stack_bar)._stats = p_foo._stats ∧
    (p_foo.on_itimer stack_foo)._stats =
      incr p_foo._stats
        (create_flamegraph_entry stack_foo p_foo._format_entry p_foo._collapse_recursion) :=
  ⟨(c6_filter_entire_entry p_foo stack_bar).2.2.2.1 rfl (by decide),
   (c6_filter_entire_entry p_foo stack_foo).2.2.2.2 rfl (by decide)⟩

/-- C7 counterexample: `on_itimer` has no `try/except`, so for a formatting
function that raises (as `default_format_entry` does when given a template
with an unknown placeholder, raising `KeyError`) the error propagates out of
the interrupt handler instead of being swallowed. -/
theorem c7_counterexample :
    on_itimer_exc [] none (fun _ => Except.error "KeyError") false stack_work =
      Except.error "KeyError" := rfl

/-- A total formatting function makes the exception-aware map succeed with
the plain map. -/
theorem map_exc_ok (g : FrameInfo → String) : ∀ l : List FrameInfo,
    map_exc (fun fi => Except.ok (g fi)) l = Except.ok (l.map g)
  | [] => rfl
  | fi :: rest => by
    simp [map_exc, map_exc_ok g rest]
    rfl

/-- A total formatting function makes the exception-aware collapse loop
succeed with the plain collapse loop. -/
theorem collapse_loop_exc_ok (g : FrameInfo → String) : ∀ (l : List FrameInfo)
    (last : Option String),
    collapse_loop_exc (fun fi => Except.ok (g fi)) last l =
      Except.ok (collapse_loop g last l)
  | [], _ => rfl
  | fi :: rest, last => by
    by_cases h : last = some fi.func
    · simp [collapse_loop_exc, collapse_loop, h,
        collapse_loop_exc_ok g rest (some fi.func)]
    · simp [collapse_loop_exc, collapse_loop, h,
        collapse_loop_exc_ok g rest (some fi.func)]
      rfl

/-- C7 amended: the handler propagates a formatting error outward, but
whenever the formatting function does not raise, `on_itimer` never raises:
it returns normally with exactly the filtered increment applied. -/
theorem c7_amended_no_raise (st : List (String × Nat)) (fil : Option (String → Bool))
    (g : FrameInfo → String) (c : Bool) (frame : List RawFrame) :
    on_itimer_exc st fil (fun fi => Except.ok (g fi)) c frame =
      Except.ok
        (if (match fil with
             | none => true
             | some f => f (create_flamegraph_entry frame g c)) then
          incr st (create_flamegraph_entry frame g c)
        else st) := by
  have hok : create_flamegraph_entry_exc frame (fun fi => Except.ok (g fi)) c =
      Except.ok (create_flamegraph_entry frame g c) := by
    cases c
    · simp only [create_flamegraph_entry_exc, create_flamegraph_entry, encode,
        map_exc_ok g (extract_frame_info frame), Bool.false_eq_true, if_false]
      rfl
    · simp only [create_flamegraph_entry_exc, create_flamegraph_entry, encode,
        collapse_loop_exc_ok g (extract_frame_info frame) none, if_true]
      rfl
  simp only [on_itimer_exc, hok]
  rw [apply_ite Except.ok]

/-- A tick touches only the stats map: the sink and the finalization flag
are unchanged. -/
theorem on_itimer_io (p : Profiler) (f : List RawFrame) :
    (p.on_itimer f)._fd_out = p._fd_out ∧
    (p.on_itimer f)._fd_closed = p._fd_closed ∧
    (p.on_itimer f)._written = p._written ∧
    (p.on_itimer f)._filter = p._filter := by
  simp only [Profiler.on_itimer]
  split
  · exact ⟨rfl, rfl, rfl, rfl⟩
  · exact ⟨rfl, rfl, rfl, rfl⟩

/-- Once set, the `_written` flag survives every later event. -/
theorem step_written_mono (p : Profiler) (e : Event) (h : p._written = true) :
    (step p e)._written = true := by
  cases e with
  | tick f => rw [step, (on_itimer_io p f).2.2.1, h]
  | stop =>
    rw [step, Profiler.stop, write_results_written p h]
    exact h

/-- A run containing no stop event leaves the sink and the finalization
flag untouched. -/
theorem run_no_stop : ∀ (tr : List Event) (p : Profiler), Event.stop ∉ tr →
    (run p tr)._fd_out = p._fd_out ∧
    (run p tr)._fd_closed = p._fd_closed ∧
    (run p tr)._written = p._written
  | [], p, _ => ⟨rfl, rfl, rfl⟩
  | e :: tr, p, h => by
    have he : e ≠ Event.stop := fun hc => h (hc ▸ List.mem_cons_self e tr)
    have htr : Event.stop ∉ tr := fun hc => h (List.mem_cons_of_mem e hc)
    cases e with
    | tick f =>
      have ht := run_no_stop tr (p.on_itimer f) htr
      have hio := on_itimer_io p f
      refine ⟨?_, ?_, ?_⟩
      · rw [show run p (Event.tick f :: tr) = run (p.on_itimer f) tr from rfl,
          ht.1, hio.1]
      · rw [show run p (Event.tick f :: tr) = run (p.on_itimer f) tr from rfl,
          ht.2.1, hio.2.1]
      · rw [show run p (Event.tick f :: tr) = run (p.on_itimer f) tr from rfl,
          ht.2.2, hio.2.2.1]
    | stop => exact absurd rfl he

/-- After finalization, the rest of the run never writes again, never
closes again, and never clears the flag. -/
theorem run_after_written : ∀ (tr : List Event) (p : Profiler), p._written = true →
    (run p tr)._fd_out = p._fd_out ∧
    (run p tr)._fd_closed = p._fd_closed ∧
    (run p tr)._written = true
  | [], _, h => ⟨rfl, rfl, h⟩
  | e :: tr, p, h => by
    cases e with
    | tick f =>
      have hio := on_itimer_io p f
      have ht := run_after_written tr (p.on_itimer f) (by rw [hio.2.2.1]; exact h)
      exact ⟨by rw [show run p (Event.tick f :: tr) = run (p.on_itimer f) tr from rfl,
          ht.1, hio.1],
        by rw [show run p (Event.tick f :: tr) = run (p.on_itimer f) tr from rfl,
          ht.2.1, hio.2.1],
        by rw [show run p (Event.tick f :: tr) = run (p.on_itimer f) tr from rfl,
          ht.2.2]⟩
    | stop =>
      have hs : p.stop = p := by rw [Profiler.stop, write_results_written p h]
      have ht := run_after_written tr p.stop (by rw [hs]; exact h)
      exact ⟨by rw [show run p (Event.stop :: tr) = run p.stop tr from rfl, ht.1, hs],
        by rw [show run p (Event.stop :: tr) = run p.stop tr from rfl, ht.2.1, hs],
        by rw [show run p (Event.stop :: tr) = run p.stop tr from rfl, ht.2.2]⟩

/-- Splitting a run at any event. -/
theorem run_append (p : Profiler) (tr₁ tr₂ : List Event) :
    run p (tr₁ ++ tr₂) = run (run p tr₁) tr₂ := by
  simp [run, List.foldl_append]

/-- Every occurrence of an element in a list has a first one. -/
theorem mem_split_first {α : Type} (a : α) : ∀ l : List α, a ∈ l →
    ∃ s t : List α, l = s ++ a :: t ∧ a ∉ s
  | b :: l, h => by
    by_cases hb : b = a
    · exact ⟨[], l, by rw [hb]; rfl, by simp⟩
    · have h' : a ∈ l := by
        rcases List.mem_cons.mp h with he | hm
        · exact absurd he.symm hb
        · exact hm
      obtain ⟨s, t, heq, hns⟩ := mem_split_first a l h'
      refine ⟨b :: s, t, by rw [heq]; rfl, ?_⟩
      intro hmem
      rcases List.mem_cons.mp hmem with he | hm
      · exact hb he.symm
      · exact hns hm

/-- C10: over any interleaving of ticks and stop calls from a fresh state,
the sink is closed at most once; nothing is written before the first stop;
the report written is exactly the one determined by the counts present at
the first stop, and later events never change the sink; the `_written` flag
is never cleared once set; a finalized `_write_results` is a no-op on the
whole state; and a tick still mutates the counts map regardless of
finalization (no `_written` test guards the increment). -/
theorem c10_first_stop_report (p : Profiler) (tr : List Event)
    (h1 : p._written = false) (h2 : p._fd_out = []) (h3 : p._fd_closed = 0) :
    (run p tr)._fd_closed ≤ 1 ∧
    (Event.stop ∉ tr → (run p tr)._fd_out = [] ∧ (run p tr)._written = false) ∧
    (∀ pre suf, tr = pre ++ Event.stop :: suf → Event.stop ∉ pre →
      (run p tr)._fd_out = report_lines (run p pre)._stats ∧
      (run p tr)._fd_closed = 1) ∧
    (∀ (q : Profiler) (e : Event), q._written = true → (step q e)._written = true) ∧
    (∀ q : Profiler, q._written = true → q._write_results = q) ∧
    (∀ (q : Profiler) (f : List RawFrame), q._filter = none →
      (q.on_itimer f)._stats =
        incr q._stats (create_flamegraph_entry f q._format_entry q._collapse_recursion)) := by
  have key : ∀ pre suf, tr = pre ++ Event.stop :: suf → Event.stop ∉ pre →
      (run p tr)._fd_out = report_lines (run p pre)._stats ∧
      (run p tr)._fd_closed = 1 := by
    intro pre suf heq hpre
    have hm := run_no_stop pre p hpre
    have hmw : (run p pre)._written = false := hm.2.2.trans h1
    have hmo : (run p pre)._fd_out = [] := hm.1.trans h2
    have hmc : (run p pre)._fd_closed = 0 := hm.2.1.trans h3
    have hsw : (run p pre).stop._written = true := by
      simp [Profiler.stop, Profiler._write_results, hmw]
    have hso : (run p pre).stop._fd_out = report_lines (run p pre)._stats := by
      simp [Profiler.stop, Profiler._write_results, hmw, hmo]
    have hsc : (run p pre).stop._fd_closed = 1 := by
      simp [Profiler.stop, Profiler._write_results, hmw, hmc]
    have hr := run_after_written suf (run p pre).stop hsw
    have hrun : run p tr = run ((run p pre).stop) suf := by
      rw [heq, run_append]
      rfl
    exact ⟨by rw [hrun, hr.1, hso], by rw [hrun, hr.2.1, hsc]⟩
  refine ⟨?_, ?_, key, fun q e hq => step_written_mono q e hq,
    fun q hq => write_results_written q hq, ?_⟩
  · by_cases hs : Event.stop ∈ tr
    · obtain ⟨pre, suf, heq, hpre⟩ := mem_split_first Event.stop tr hs
      rw [(key pre suf heq hpre).2]
    · rw [(run_no_stop tr p hs).2.1, h3]
      omega
  · intro hns
    exact ⟨(run_no_stop tr p hns).1.trans h2, (run_no_stop tr p hns).2.2.trans h1⟩
  · intro q f hq
    simp [Profiler.on_itimer, hq]

/-- Closed instance of the lifetime theorem on a concrete trace with two
stop calls: the sink is closed at most once and the final sink contents are
the report determined at the first stop. -/
theorem c10_first_stop_report_witness :
    (run p_plain tr_events)._fd_closed ≤ 1 ∧
    (run p_plain tr_events)._fd_out =
      report_lines (run p_plain [Event.tick stack_work])._stats := by
  obtain ⟨w1, _, w3, _, _, _⟩ := c10_first_stop_report p_plain tr_events rfl rfl rfl
  exact ⟨w1,
    (w3 [Event.tick stack_work] [Event.tick stack_work, Event.stop] rfl (by decide)).1⟩
